import Mathlib

/-!
Verification of the statistics core of the `git-stats` repository.

The embedding below translates the TypeScript sources:
  * `src/cli.ts` — percentile classification (`calculatePercentile`,
    `calculatePercentileRank`, `calculateStats`) and chart rendering
    (`prepareChartData`, `printChart`);
  * `src/git-analyzer.ts` — the `StatisticsManager` accumulator
    (`addCommitStats`, `aggregateStats`, `getStats`).

Modelling conventions:
  * JavaScript numbers holding change counts are natural numbers; exact
    rational arithmetic stands in for floating point (counts are small
    integers, far below any double-precision rounding).
  * `Math.ceil`/`Math.round` of ratios of integers are embedded as integer
    ceiling division and as `⌊x + 1/2⌋` implemented with `Int.fdiv`
    (JavaScript `Math.round` rounds half toward +∞, i.e. `⌊x + 1/2⌋`).
  * A JavaScript `Map` is an association list with unique keys kept in
    insertion order; `Map.set` overwrites the value at the key's original
    position and appends unknown keys, exactly as `Map` iteration behaves.
  * `Array.prototype.sort` with the numeric comparator `(a, b) => a - b`
    sorts ascending; it is modelled by `List.insertionSort (· ≤ ·)`,
    which produces the same (ascending) list of numbers.
-/

namespace GitStats

/-- `Math.round (a / b)` for an integer numerator `a` and positive integer
denominator `b`:  JavaScript rounds half toward `+∞`, so the result is
`⌊a/b + 1/2⌋ = ⌊(2a + b) / (2b)⌋`, written with flooring division. -/
def jsRoundDiv (a : Int) (b : Nat) : Int :=
  Int.fdiv (2 * a + (b : Int)) (2 * (b : Int))

/-- `Math.round q` for an exact rational `q` (JavaScript `⌊q + 1/2⌋`). -/
def ratRound (q : Rat) : Int :=
  Int.fdiv (2 * q.num + (q.den : Int)) (2 * (q.den : Int))

/-- Nat ceiling division: `⌈a / b⌉ = (a + b - 1) / b` for `b > 0`. -/
def natCeilDiv (a b : Nat) : Nat := (a + b - 1) / b

/-- Ascending numeric sort, the model of `[...values].sort((a, b) => a - b)`
from `src/cli.ts`. -/
def sortNat (l : List Nat) : List Nat := List.insertionSort (· ≤ ·) l

/-- `src/cli.ts` `calculatePercentile`:
sort ascending, then return `sorted[Math.ceil((percentile / 100) * n) - 1]`.
For naturals the real number `(percentile / 100) · n` is exactly
`percentile · n / 100`, so its ceiling is `natCeilDiv (percentile * n) 100`
(the agreement with the rational ceiling is proved below).  The `- 1` is
Nat subtraction; it can truncate only
when `percentile * n = 0`, and the function is only ever invoked with
`n ≥ 2` and `percentile ≥ 1`. -/
def calculatePercentile (values : List Nat) (percentile : Nat) : Nat :=
  let sorted := sortNat values
  let index := natCeilDiv (percentile * sorted.length) 100 - 1
  sorted.getD index 0

/-- Option-valued first index satisfying `p`, the helper behind the model of
`Array.prototype.findIndex`. -/
def findIdxO (p : Nat → Bool) : List Nat → Option Nat
  | [] => none
  | x :: xs => if p x then some 0 else (findIdxO p xs).map (· + 1)

/-- `src/cli.ts` `calculatePercentileRank`:
sort ascending, `index = sorted.findIndex(v => v >= value)` (which is `-1`
when no element qualifies), then `Math.round((index / n) * 100)`. -/
def calculatePercentileRank (value : Nat) (values : List Nat) : Int :=
  let sorted := sortNat values
  let index : Int :=
    match findIdxO (fun v => value ≤ v) sorted with
    | some i => (i : Int)
    | none => -1
  jsRoundDiv (100 * index) sorted.length

/-- Result record of `calculateStats` (`src/cli.ts`). -/
structure StatsResult where
  filteredValues : List Nat
  avgValue : Rat
  percentileValue : Nat
deriving DecidableEq

/-- `src/cli.ts` `calculateStats`.  For `values.length ≤ 1` it returns the
degenerate record built from `values[0] || 0`.  Otherwise it computes the
percentile cutoff, keeps the values `≤` the cutoff, and divides their sum
by their count.  The division is exact rational division, written `mkRat`
(`mkRat a b = a / b` in `ℚ`); the divisor is never zero on this branch,
because the filtered list always retains the cutoff value itself. -/
def calculateStats (values : List Nat) (currentPercentile : Nat) : StatsResult :=
  if values.length ≤ 1 then
    { filteredValues := values
      avgValue := ((values.headD 0 : Nat) : Rat)
      percentileValue := values.headD 0 }
  else
    let percentileValue := calculatePercentile values currentPercentile
    let filteredValues := values.filter (fun v => v ≤ percentileValue)
    let totalChanges : Nat := filteredValues.foldl (· + ·) 0
    let avgValue : Rat := mkRat totalChanges filteredValues.length
    { filteredValues := filteredValues
      avgValue := avgValue
      percentileValue := percentileValue }

/-- An insertion/deletion pair, the value type of the day-bucket map of
`StatisticsManager` (`src/git-analyzer.ts`). -/
structure Counts where
  insertions : Nat
  deletions : Nat
deriving DecidableEq

/-- A JavaScript `Map<string, β>`: an association list in insertion order
with unique keys. -/
abbrev JsMap (β : Type) := List (String × β)

/-- `Map.get`: the value stored at `key`, if present. -/
def mapGet {β : Type} : JsMap β → String → Option β
  | [], _ => none
  | (k, v) :: rest, key => if k = key then some v else mapGet rest key

/-- `Map.get` with a default (`map.get(k) || d`). -/
def mapGetD {β : Type} (m : JsMap β) (key : String) (d : β) : β :=
  (mapGet m key).getD d

/-- `Map.set`: overwrite the value at the key's original position, or append
a new entry at the end — exactly the iteration-order behaviour of a
JavaScript `Map`. -/
def mapSet {β : Type} : JsMap β → String → β → JsMap β
  | [], key, v => [(key, v)]
  | (k, w) :: rest, key, v =>
    if k = key then (k, v) :: rest else (k, w) :: mapSet rest key v

/-- `new Map(entries)`: insert every entry in order with `Map.set`. -/
def mapOfList {β : Type} (l : JsMap β) : JsMap β :=
  l.foldl (fun acc e => mapSet acc e.1 e.2) []

/-- The day-bucket map of the manager. -/
abbrev StatMap := JsMap Counts

/-- The body shared by `addCommitStats` and the aggregation loop of
`src/git-analyzer.ts`:
`const existing = map.get(key) || { insertions: 0, deletions: 0 };
 map.set(key, { insertions: existing.insertions + c.insertions, ... })`. -/
def addCounts (m : StatMap) (key : String) (c : Counts) : StatMap :=
  let existing := mapGetD m key ⟨0, 0⟩
  mapSet m key ⟨existing.insertions + c.insertions,
                existing.deletions + c.deletions⟩

/-- Total insertions over all entries of a map. -/
def sumIns : StatMap → Nat
  | [] => 0
  | (_, c) :: rest => c.insertions + sumIns rest

/-- Total deletions over all entries of a map. -/
def sumDel : StatMap → Nat
  | [] => 0
  | (_, c) :: rest => c.deletions + sumDel rest

/-- `CommitStats` from `src/types.ts`: one change record per processed
commit.  `timestamp` is the epoch value of the `Date` object; `hash` and
`message` are optional, as in the TypeScript interface. -/
structure CommitStats where
  date : String
  timestamp : Int
  insertions : Nat
  deletions : Nat
  hash : Option String
  message : Option String
deriving DecidableEq, Inhabited

/-- The JavaScript truthiness test `if (hash)` of `addCommitStats`:
`hash` must be present and non-empty. -/
def truthyHash (c : CommitStats) : Option String :=
  match c.hash with
  | some h => if h = "" then none else some h
  | none => none

/-- The mutable state of `StatisticsManager` (`src/git-analyzer.ts`). -/
structure StatisticsManager where
  stats : StatMap
  commitStats : JsMap CommitStats
  commitOrder : List String
deriving DecidableEq

/-- A freshly constructed (or `clear()`ed) manager. -/
def initManager : StatisticsManager := ⟨[], [], []⟩

/-- `StatisticsManager.addCommitStats`: accumulate the record into the day
bucket for its date; when the hash is truthy, also store the record under
its hash and append the hash to `commitOrder`. -/
def addCommitStats (m : StatisticsManager) (c : CommitStats) : StatisticsManager :=
  let stats := addCounts m.stats c.date ⟨c.insertions, c.deletions⟩
  match truthyHash c with
  | some h =>
    { stats := stats
      commitStats := mapSet m.commitStats h c
      commitOrder := m.commitOrder ++ [h] }
  | none => { m with stats := stats }

/-- `StatisticsManager.getStats`: returns the day-bucket map. -/
def getStats (m : StatisticsManager) : StatMap := m.stats

/-- The aggregation period of `aggregateStats`. -/
inductive Period where
  | day
  | month
  | year
  | commit
deriving DecidableEq

/-- `substring(0, n)` on a string (UTF-16 units coincide with characters for
the ASCII dates/hashes involved). -/
def strTake (s : String) (n : Nat) : String := ⟨s.data.take n⟩

/-- `message.split('\n')[0]`: the prefix before the first newline. -/
def firstLine (s : String) : String := ⟨s.data.takeWhile (fun c => c ≠ '\n')⟩

/-- Template-string interpolation of a possibly-`undefined` value: JavaScript
renders `undefined` as the literal text `"undefined"`. -/
def undefStr : Option String → String
  | some s => s
  | none => "undefined"

/-- The composite key built for one record in commit mode:
`` `${stats.date} ${stats.hash?.substring(0, 7)} ${stats.message?.split('\n')[0].substring(0, 50)}` ``. -/
def commitKey (s : CommitStats) : String :=
  s.date ++ " " ++ undefStr (s.hash.map (fun h => strTake h 7)) ++ " " ++
    undefStr (s.message.map (fun msg => strTake (firstLine msg) 50))

/-- The day/month/year grouping key: the date itself, its first 7
characters (`YYYY-MM`), or its first 4 characters (`YYYY`). -/
def periodKey (p : Period) (date : String) : String :=
  match p with
  | .day => date
  | .month => strTake date 7
  | .year => strTake date 4
  | .commit => date

/-- `StatisticsManager.aggregateStats`.  In `commit` mode: map each stored
hash (in `commitOrder` order) to its record's composite key and counts, and
pour the entries into a fresh `Map` (so colliding keys are merged, the last
value winning at the first key's position).  Otherwise: fold the day
buckets into a fresh map keyed by `periodKey`. -/
def aggregateStats (m : StatisticsManager) (p : Period) : StatMap :=
  match p with
  | .commit =>
    let orderedCommits := m.commitOrder.map (fun h =>
      let s := mapGetD m.commitStats h default
      (commitKey s, (⟨s.insertions, s.deletions⟩ : Counts)))
    mapOfList orderedCommits
  | _ =>
    m.stats.foldl (fun acc e => addCounts acc (periodKey p e.1) e.2) []

/-- The manager state after ingesting a list of records into a fresh
manager, i.e. after `clear()` followed by the analysis loop. -/
def applyRecords (recs : List CommitStats) : StatisticsManager :=
  recs.foldl addCommitStats initManager


/-- `ChartData` from `src/types.ts`, restricted to the numerically
meaningful fields.  `dateWidth` and `maxValueWidth` only pad whitespace in
the printed text and are omitted from the rendering abstraction.
`maxValue` is `Math.max(...values)`, which on an empty array is
`-Infinity`; that is modelled as `none` (it is never consumed in that
case: `printChart` returns before using it). -/
structure ChartData where
  dates : List String
  values : List Nat
  maxValue : Option Nat
  avgValue : Rat
  filteredValues : List Nat
  totalChanges : Nat
  insertions : List Nat
  deletions : List Nat
  percentileValue : Nat
deriving DecidableEq

/-- `Math.max(...values)` over a list of naturals (`none` on `[]`). -/
def maxNat? : List Nat -> Option Nat
  | [] => none
  | x :: xs => some (xs.foldl Nat.max x)

/-- `date.includes(' ')`. -/
def strHasSpace (s : String) : Bool := s.data.contains ' '

/-- Default lexicographic `dates.sort()` on strings. -/
def sortStr (l : List String) : List String := List.insertionSort (fun a b => a <= b) l

/-- `CLI.prepareChartData` (`src/cli.ts`): collect the map's keys (sorted
unless the first key contains a space, i.e. unless it is a commit-mode
composite key), read off per-key totals and insertion/deletion splits, and
run `calculateStats` over the totals. -/
def prepareChartData (stats : StatMap) (currentPercentile : Nat) : ChartData :=
  let keys := stats.map Prod.fst
  let dates :=
    match keys with
    | [] => sortStr keys
    | k :: _ => if strHasSpace k then keys else sortStr keys
  let values := dates.map (fun d =>
    (mapGetD stats d ⟨0, 0⟩).insertions + (mapGetD stats d ⟨0, 0⟩).deletions)
  let r := calculateStats values currentPercentile
  { dates := dates
    values := values
    maxValue := maxNat? values
    avgValue := r.avgValue
    filteredValues := r.filteredValues
    totalChanges := values.foldl (fun a b => a + b) 0
    insertions := dates.map (fun d => (mapGetD stats d ⟨0, 0⟩).insertions)
    deletions := dates.map (fun d => (mapGetD stats d ⟨0, 0⟩).deletions)
    percentileValue := r.percentileValue }

/-- One line of `printChart` output.  Constructors appear in the order the
source emits them; text-only styling (colors, padding) is abstracted away,
while every number shown on the line is carried. -/
inductive ChartLine where
  | chartHeader (repoPath : String)
  | scaleRule
  | scaleLabels (labels : List Int)
  | avgMarker (avgPosition : Int) (avgRounded : Int)
  | barRow (date : String) (value : Nat) (totalBarLength insBarLength delBarLength : Int)
      (outlier : Bool) (percentage : Rat) (rank : Int)
  | statsHeader
  | lifespanLine (lifespan : Nat)
  | avgPerDayLine (percentile : Nat) (avgChangesPerDay : Nat)
  | avgPerPeriodLine (percentile : Nat) (avgPerPeriod : Int)
  | activePeriodsLine (activePeriods : Nat) (possiblePeriods : Int) (activePercentage : Rat)
deriving DecidableEq

/-- The period-type dispatch at the bottom of `printChart`: a 4-character
first date means `year`, 7 characters mean `month`, a date containing a
space means `commit`, anything else means `day`. -/
inductive PeriodKind where
  | year
  | month
  | commit
  | day
deriving DecidableEq

/-- `printChart`'s classification of the first date label. -/
def periodKindOf (firstDate : String) : PeriodKind :=
  if firstDate.length = 4 then .year
  else if firstDate.length = 7 then .month
  else if strHasSpace firstDate then .commit
  else .day

/-- `CLI.printChart` (`src/cli.ts`) as the list of lines it prints.  The
empty-data guard `if (!dates.length) return;` sits before the first
`console.log`, so an empty map produces no lines at all.  The memoized
percentile-rank cache is dropped: `calculatePercentileRank` is pure, so the
cached and direct results coincide.  All divisions happen in the non-empty
branch, where `maxValue` is the maximum of a non-empty list of totals. -/
def printChart (stats : StatMap) (repoPath : String) (currentPercentile : Nat)
    (lifespan : Nat) (avgChangesPerDay : Nat) : List ChartLine :=
  let d := prepareChartData stats currentPercentile
  if d.dates.isEmpty then []
  else
    let maxValue := d.maxValue.getD 0
    let scaleWidth : Nat := 50
    let avgPosition := ratRound (d.avgValue * 50 / (maxValue : Rat))
    let scaleValues := (List.range 5).map (fun i => jsRoundDiv (maxValue * i) 4)
    let rows := (List.range d.dates.length).map (fun i =>
      let date := d.dates.getD i ""
      let value := d.values.getD i 0
      let ins := d.insertions.getD i 0
      let del := d.deletions.getD i 0
      ChartLine.barRow date value
        (jsRoundDiv (value * scaleWidth) maxValue)
        (jsRoundDiv (ins * scaleWidth) maxValue)
        (jsRoundDiv (del * scaleWidth) maxValue)
        (decide (d.percentileValue < value))
        ((value : Rat) / (d.totalChanges : Rat) * 100)
        (calculatePercentileRank value d.values))
    let firstDate := d.dates.headD ""
    let kind := periodKindOf firstDate
    let totalPeriods : Rat :=
      match kind with
      | .year => (lifespan : Rat) / 365
      | .month => (lifespan : Rat) / 30
      | .commit => (d.dates.length : Rat)
      | .day => (lifespan : Rat)
    let activePeriods := d.filteredValues.length
    let avgPerPeriod := jsRoundDiv (d.filteredValues.foldl (fun a b => a + b) 0) activePeriods
    let statsTail :=
      [ChartLine.statsHeader, ChartLine.lifespanLine lifespan] ++
      (if kind = .day then []
       else [ChartLine.avgPerDayLine currentPercentile avgChangesPerDay]) ++
      [ChartLine.avgPerPeriodLine currentPercentile avgPerPeriod,
       ChartLine.activePeriodsLine activePeriods ⌈totalPeriods⌉
         ((activePeriods : Rat) / (⌈totalPeriods⌉ : Rat) * 100)]
    [ChartLine.chartHeader repoPath, ChartLine.scaleRule,
     ChartLine.scaleLabels scaleValues,
     ChartLine.avgMarker avgPosition (ratRound d.avgValue)] ++
    rows ++ [ChartLine.scaleRule] ++ statsTail


/-- Specification-side maximum of a list of naturals (`max(values)`). -/
def listMax : List Nat → Nat
  | [] => 0
  | x :: xs => Nat.max x (listMax xs)

/-- Specification-side minimum of a non-empty list of naturals. -/
def listMin : List Nat → Nat
  | [] => 0
  | [x] => x
  | x :: y :: t => Nat.min x (listMin (y :: t))

/-- The records of a list sharing a given date (specification side). -/
def recsOnDate (recs : List CommitStats) (d : String) : List CommitStats :=
  recs.filter (fun r => r.date = d)

/-- Total insertions of a list of records (specification side). -/
def sumRecsIns (recs : List CommitStats) : Nat :=
  (recs.map CommitStats.insertions).sum

/-- Total deletions of a list of records (specification side). -/
def sumRecsDel (recs : List CommitStats) : Nat :=
  (recs.map CommitStats.deletions).sum

/-- The per-day total demanded by the `DailyTotal` invariant: `none` when no
record carries the date, otherwise the componentwise sum over the records
sharing it (specification side). -/
def dailyTotal (recs : List CommitStats) (d : String) : Option Counts :=
  if recsOnDate recs d = [] then none
  else some ⟨sumRecsIns (recsOnDate recs d), sumRecsDel (recsOnDate recs d)⟩

/-! ### Helper lemmas: sorting -/

theorem sortNat_perm (l : List Nat) : (sortNat l).Perm l :=
  List.perm_insertionSort _ l

theorem sortNat_length (l : List Nat) : (sortNat l).length = l.length :=
  (sortNat_perm l).length_eq

theorem sortNat_sorted (l : List Nat) : (sortNat l).Sorted (· ≤ ·) :=
  List.sorted_insertionSort _ l

theorem mem_sortNat {x : Nat} {l : List Nat} : x ∈ sortNat l ↔ x ∈ l :=
  (sortNat_perm l).mem_iff

/-! ### Helper lemmas: list maxima and minima -/

theorem le_listMax {l : List Nat} {x : Nat} (hx : x ∈ l) : x ≤ listMax l := by
  induction l with
  | nil => cases hx
  | cons y ys ih =>
    rcases List.mem_cons.mp hx with h | h
    · subst h; exact Nat.le_max_left _ _
    · exact le_trans (ih h) (Nat.le_max_right _ _)

theorem listMax_mem {l : List Nat} (h : l ≠ []) : listMax l ∈ l := by
  induction l with
  | nil => cases h rfl
  | cons y ys ih =>
    cases ys with
    | nil => simp [listMax]
    | cons z zs =>
      have hx := ih (by simp)
      rcases le_total y (listMax (z :: zs)) with hm | hm
      · have heq : listMax (y :: z :: zs) = listMax (z :: zs) := by
          show Nat.max y (listMax (z :: zs)) = _
          exact Nat.max_eq_right hm
        rw [heq]
        exact List.mem_cons_of_mem _ hx
      · have heq : listMax (y :: z :: zs) = y := by
          show Nat.max y (listMax (z :: zs)) = _
          exact Nat.max_eq_left hm
        rw [heq]
        exact List.mem_cons_self _ _

theorem listMin_le {l : List Nat} {x : Nat} (hx : x ∈ l) : listMin l ≤ x := by
  induction l with
  | nil => cases hx
  | cons y ys ih =>
    cases ys with
    | nil =>
      rcases List.mem_cons.mp hx with h | h
      · subst h; exact le_refl _
      · cases h
    | cons z zs =>
      rcases List.mem_cons.mp hx with h | h
      · subst h; exact Nat.min_le_left _ _
      · exact le_trans (Nat.min_le_right _ _) (ih h)

theorem listMin_mem {l : List Nat} (h : l ≠ []) : listMin l ∈ l := by
  induction l with
  | nil => cases h rfl
  | cons y ys ih =>
    cases ys with
    | nil => simp [listMin]
    | cons z zs =>
      have hx := ih (by simp)
      rcases le_total y (listMin (z :: zs)) with hm | hm
      · have heq : listMin (y :: z :: zs) = y := by
          show Nat.min y (listMin (z :: zs)) = _
          exact Nat.min_eq_left hm
        rw [heq]
        exact List.mem_cons_self _ _
      · have heq : listMin (y :: z :: zs) = listMin (z :: zs) := by
          show Nat.min y (listMin (z :: zs)) = _
          exact Nat.min_eq_right hm
        rw [heq]
        exact List.mem_cons_of_mem _ hx

theorem getD_mem {l : List Nat} {i : Nat} (h : i < l.length) : l.getD i 0 ∈ l := by
  rw [List.getD_eq_getElem l 0 h]
  exact List.getElem_mem h

theorem sorted_le_getD_last {l : List Nat} (hs : l.Sorted (· ≤ ·)) {x : Nat}
    (hx : x ∈ l) : x ≤ l.getD (l.length - 1) 0 := by
  obtain ⟨i, rfl⟩ := List.mem_iff_get.mp hx
  have hne : l ≠ [] := List.ne_nil_of_mem hx
  have hlen : 0 < l.length := List.length_pos.mpr hne
  have hlast : l.length - 1 < l.length := Nat.sub_lt hlen Nat.one_pos
  rw [List.getD_eq_getElem l 0 hlast]
  rcases Nat.lt_or_ge i.1 (l.length - 1) with hlt | hge
  · have := List.pairwise_iff_get.mp hs i ⟨l.length - 1, hlast⟩ hlt
    simpa [List.get_eq_getElem] using this
  · have heq : i.1 = l.length - 1 := le_antisymm (Nat.le_sub_one_of_lt i.2) hge
    simp [List.get_eq_getElem, heq]

theorem sortNat_getD_last_eq_listMax {l : List Nat} (h : l ≠ []) :
    (sortNat l).getD ((sortNat l).length - 1) 0 = listMax l := by
  have hne : sortNat l ≠ [] := by
    intro hcon
    have hp := sortNat_perm l
    rw [hcon] at hp
    exact h hp.symm.eq_nil
  have hlen : 0 < (sortNat l).length := List.length_pos.mpr hne
  apply le_antisymm
  · exact le_listMax (mem_sortNat.mp (getD_mem (Nat.sub_lt hlen Nat.one_pos)))
  · exact sorted_le_getD_last (sortNat_sorted l) (mem_sortNat.mpr (listMax_mem h))

/-! ### Helper lemmas: ceiling division -/

theorem natCeilDiv_cast_eq_ceil (a b : Nat) (hb : 0 < b) :
    (natCeilDiv a b : Int) = ⌈(a : Rat) / (b : Rat)⌉ := by
  have hbq : (0 : Rat) < (b : Rat) := by exact_mod_cast hb
  have hdm : natCeilDiv a b * b + (a + b - 1) % b = a + b - 1 := Nat.div_add_mod' _ _
  have hmod : (a + b - 1) % b < b := Nat.mod_lt _ hb
  have hcast : ((a + b - 1 : Nat) : Rat) = (a : Rat) + (b : Rat) - 1 := by
    have h1 : (1 : Nat) ≤ a + b := by omega
    push_cast [Nat.cast_sub h1]
    ring
  have hdmq : ((natCeilDiv a b : Nat) : Rat) * (b : Rat) + (((a + b - 1) % b : Nat) : Rat)
      = (a : Rat) + (b : Rat) - 1 := by
    rw [← hcast]
    exact_mod_cast hdm
  have hmodq : (((a + b - 1) % b : Nat) : Rat) < (b : Rat) := by exact_mod_cast hmod
  have hmodq0 : (0 : Rat) ≤ (((a + b - 1) % b : Nat) : Rat) := by positivity
  have h2 : a ≤ natCeilDiv a b * b := by
    have hdm2 := hdm
    have hmod2 := hmod
    generalize natCeilDiv a b * b = kb at hdm2
    generalize (a + b - 1) % b = r at hdm2 hmod2
    omega
  symm
  rw [Int.ceil_eq_iff]
  push_cast
  constructor
  · rw [lt_div_iff₀ hbq]
    linarith
  · rw [div_le_iff₀ hbq]
    exact_mod_cast h2

/-! ### Helper lemmas: the classifier -/

theorem calculatePercentile_getD (values : List Nat) (p : Nat) :
    calculatePercentile values p
      = (sortNat values).getD (natCeilDiv (p * values.length) 100 - 1) 0 := by
  simp only [calculatePercentile, sortNat_length]

theorem calculateStats_of_two_le {values : List Nat} (p : Nat)
    (h : 2 ≤ values.length) :
    calculateStats values p =
      { filteredValues := values.filter (fun v => v ≤ calculatePercentile values p)
        avgValue := mkRat
          (((values.filter (fun v => v ≤ calculatePercentile values p)).foldl
              (· + ·) 0 : Nat) : Int)
          (values.filter (fun v => v ≤ calculatePercentile values p)).length
        percentileValue := calculatePercentile values p } := by
  unfold calculateStats
  rw [if_neg (by omega)]

theorem calculateStats_degenerate {values : List Nat} (p : Nat)
    (h : values.length ≤ 1) :
    calculateStats values p =
      { filteredValues := values
        avgValue := ((values.headD 0 : Nat) : Rat)
        percentileValue := values.headD 0 } := by
  unfold calculateStats
  rw [if_pos h]

theorem percentile_index_eq (p n : Nat) :
    (natCeilDiv (p * n) 100 : Int) = ⌈(p : Rat) / 100 * (n : Rat)⌉ := by
  rw [natCeilDiv_cast_eq_ceil (p * n) 100 (by norm_num)]
  congr 1
  push_cast
  ring

theorem percentile_index_bounds (p n : Nat) (hp1 : 1 ≤ p) (hn : 1 ≤ n)
    (hp2 : p ≤ 100) :
    1 ≤ natCeilDiv (p * n) 100 ∧ natCeilDiv (p * n) 100 ≤ n := by
  have ha1 : 1 ≤ p * n := Nat.mul_le_mul hp1 hn
  have ha2 : p * n ≤ 100 * n := Nat.mul_le_mul_right n hp2
  unfold natCeilDiv
  constructor
  · have : 100 ≤ p * n + 100 - 1 := by omega
    generalize p * n = a at *
    omega
  · generalize hx : p * n = a at *
    omega

theorem foldl_add_eq_sum (l : List Nat) (a : Nat) :
    l.foldl (· + ·) a = a + l.sum := by
  induction l generalizing a with
  | nil => simp
  | cons x xs ih => simp [List.foldl_cons, ih, List.sum_cons]; omega

theorem count_filter_eq (q : Nat → Bool) (l : List Nat) (x : Nat) :
    (l.filter q).count x = if q x then l.count x else 0 := by
  induction l with
  | nil => simp
  | cons y ys ih =>
    by_cases hy : q y
    · rw [List.filter_cons_of_pos hy]
      by_cases hxy : y = x
      · subst hxy
        simp [List.count_cons_self, ih, hy]
      · rw [List.count_cons_of_ne (by exact fun h => hxy h.symm),
            List.count_cons_of_ne (by exact fun h => hxy h.symm)] at *
        exact ih
    · rw [List.filter_cons_of_neg hy]
      by_cases hxy : y = x
      · subst hxy
        simp only [List.count_cons_self, ih]
        by_cases hq : q y
        · exact absurd hq hy
        · simp [hq]
      · rw [List.count_cons_of_ne (by exact fun h => hxy h.symm)]
        exact ih

theorem mkRat_cast_eq_div (a b : Nat) :
    mkRat (a : Int) b = ((a : Nat) : Rat) / ((b : Nat) : Rat) := by
  rw [Rat.mkRat_eq_divInt, Rat.divInt_eq_div]
  push_cast
  ring

/-! ### Claim theorems: the percentile classifier -/

/-- C1: for at least two non-negative values and an integer percentile in
[1, 100], `classify` sorts ascending and returns as `percentileValue` the
sorted element at index `⌈p/100 · n⌉ - 1`, an index that always lies in
`[0, n-1]`; in particular at percentile 100 the cutoff is `max(values)`. -/
theorem classify_nearest_rank_percentile (values : List Nat) (p : Nat)
    (hlen : 2 ≤ values.length) (hp1 : 1 ≤ p) (hp2 : p ≤ 100) :
    1 ≤ ⌈(p : Rat) / 100 * (values.length : Rat)⌉ ∧
    ⌈(p : Rat) / 100 * (values.length : Rat)⌉ ≤ (values.length : Int) ∧
    (calculateStats values p).percentileValue
      = (sortNat values).getD
          (⌈(p : Rat) / 100 * (values.length : Rat)⌉ - 1).toNat 0 ∧
    (calculateStats values 100).percentileValue = listMax values := by
  have hn : 1 ≤ values.length := by omega
  have hidx := percentile_index_eq p values.length
  have hbounds := percentile_index_bounds p values.length hp1 hn hp2
  refine ⟨?_, ?_, ?_, ?_⟩
  · rw [← hidx]
    exact_mod_cast hbounds.1
  · rw [← hidx]
    exact_mod_cast hbounds.2
  · rw [calculateStats_of_two_le p hlen]
    show calculatePercentile values p = _
    rw [calculatePercentile_getD]
    congr 1
    rw [← hidx]
    omega
  · rw [calculateStats_of_two_le 100 hlen]
    show calculatePercentile values 100 = _
    rw [calculatePercentile_getD]
    have h100 : natCeilDiv (100 * values.length) 100 = values.length := by
      unfold natCeilDiv
      omega
    rw [h100, ← sortNat_length values]
    exact sortNat_getD_last_eq_listMax (by intro hcon; rw [hcon] at hlen; simp at hlen)

/-- C1 witness at `values = [10, 20, 30, 40, 1000]`, `p = 80`. -/
theorem classify_nearest_rank_percentile_witness :
    1 ≤ ⌈(80 : Rat) / 100 * ((5 : Nat) : Rat)⌉ ∧
    ⌈(80 : Rat) / 100 * ((5 : Nat) : Rat)⌉ ≤ ((5 : Nat) : Int) ∧
    (calculateStats [10, 20, 30, 40, 1000] 80).percentileValue
      = (sortNat [10, 20, 30, 40, 1000]).getD
          (⌈(80 : Rat) / 100 * ((5 : Nat) : Rat)⌉ - 1).toNat 0 ∧
    (calculateStats [10, 20, 30, 40, 1000] 100).percentileValue
      = listMax [10, 20, 30, 40, 1000] := by
  have h := classify_nearest_rank_percentile [10, 20, 30, 40, 1000] 80
    (by decide) (by decide) (by decide)
  simpa using h

/-- C2: for at least two values and a legal percentile, `filteredValues` is
exactly the sub-collection of `values` that are `≤ percentileValue`
(counted with multiplicity, so ties with the cutoff are retained), a
sublist of `values` with every element `≤ percentileValue`. -/
theorem classify_filter_inclusive (values : List Nat) (p : Nat)
    (hlen : 2 ≤ values.length) (hp1 : 1 ≤ p) (hp2 : p ≤ 100) :
    (∀ x : Nat, (calculateStats values p).filteredValues.count x =
        if x ≤ (calculateStats values p).percentileValue
        then values.count x else 0) ∧
    (calculateStats values p).filteredValues.Sublist values ∧
    ∀ x ∈ (calculateStats values p).filteredValues,
      x ≤ (calculateStats values p).percentileValue := by
  rw [calculateStats_of_two_le p hlen]
  refine ⟨?_, ?_, ?_⟩
  · intro x
    have h := count_filter_eq (fun v => decide (v ≤ calculatePercentile values p)) values x
    simpa using h
  · exact List.filter_sublist values
  · intro x hx
    have := List.mem_filter.mp hx
    simpa using this.2

/-- C2 witness at `values = [10, 20, 30, 40, 1000]`, `p = 80`. -/
theorem classify_filter_inclusive_witness :
    (∀ x : Nat, (calculateStats [10, 20, 30, 40, 1000] 80).filteredValues.count x =
        if x ≤ (calculateStats [10, 20, 30, 40, 1000] 80).percentileValue
        then [10, 20, 30, 40, 1000].count x else 0) ∧
    (calculateStats [10, 20, 30, 40, 1000] 80).filteredValues.Sublist
      [10, 20, 30, 40, 1000] ∧
    ∀ x ∈ (calculateStats [10, 20, 30, 40, 1000] 80).filteredValues,
      x ≤ (calculateStats [10, 20, 30, 40, 1000] 80).percentileValue :=
  classify_filter_inclusive [10, 20, 30, 40, 1000] 80
    (by decide) (by decide) (by decide)

/-- C3: for at least two values and a legal percentile, `averageValue` is
the sum of `filteredValues` divided by their count (0 on an empty list —
which never occurs here); on `[10, 20, 30, 40, 1000]` at percentile 80 the
cutoff is 40, the filtered list `[10, 20, 30, 40]` and the average 25. -/
theorem classify_average_mean (values : List Nat) (p : Nat)
    (hlen : 2 ≤ values.length) (hp1 : 1 ≤ p) (hp2 : p ≤ 100) :
    (calculateStats values p).avgValue =
      (((calculateStats values p).filteredValues.sum : Nat) : Rat)
        / (((calculateStats values p).filteredValues.length : Nat) : Rat) ∧
    ((calculateStats values p).filteredValues = []
      → (calculateStats values p).avgValue = 0) ∧
    (calculateStats [10, 20, 30, 40, 1000] 80).percentileValue = 40 ∧
    (calculateStats [10, 20, 30, 40, 1000] 80).filteredValues
      = [10, 20, 30, 40] ∧
    (calculateStats [10, 20, 30, 40, 1000] 80).avgValue = 25 := by
  refine ⟨?_, ?_, by decide, by decide, by decide⟩
  · rw [calculateStats_of_two_le p hlen]
    show mkRat _ _ = _
    rw [foldl_add_eq_sum, Nat.zero_add, mkRat_cast_eq_div]
  · intro hempty
    rw [calculateStats_of_two_le p hlen] at hempty ⊢
    simp only at hempty
    show mkRat _ _ = 0
    rw [hempty]
    decide

/-- C3 witness at `values = [10, 20, 30, 40, 1000]`, `p = 80`. -/
theorem classify_average_mean_witness :
    (calculateStats [10, 20, 30, 40, 1000] 80).avgValue =
      (((calculateStats [10, 20, 30, 40, 1000] 80).filteredValues.sum : Nat) : Rat)
        / (((calculateStats [10, 20, 30, 40, 1000] 80).filteredValues.length : Nat) : Rat) ∧
    ((calculateStats [10, 20, 30, 40, 1000] 80).filteredValues = []
      → (calculateStats [10, 20, 30, 40, 1000] 80).avgValue = 0) ∧
    (calculateStats [10, 20, 30, 40, 1000] 80).percentileValue = 40 ∧
    (calculateStats [10, 20, 30, 40, 1000] 80).filteredValues
      = [10, 20, 30, 40] ∧
    (calculateStats [10, 20, 30, 40, 1000] 80).avgValue = 25 := by
  have h := classify_average_mean [10, 20, 30, 40, 1000] 80
    (by decide) (by decide) (by decide)
  exact ⟨h.1, h.2.1, h.2.2.1, h.2.2.2.1, h.2.2.2.2⟩

/-- C8: for at most one input value and any legal percentile, `classify`
returns the sole value (or 0 for the empty list) as both `percentileValue`
and `averageValue`, with `filteredValues` the input unchanged. -/
theorem classify_degenerate_small (values : List Nat) (p : Nat)
    (hlen : values.length ≤ 1) (hp1 : 1 ≤ p) (hp2 : p ≤ 100) :
    (calculateStats values p).filteredValues = values ∧
    (calculateStats values p).percentileValue = values.headD 0 ∧
    (calculateStats values p).avgValue = ((values.headD 0 : Nat) : Rat) := by
  rw [calculateStats_degenerate p hlen]
  exact ⟨rfl, rfl, rfl⟩

/-- C8 witness at the single-day dataset `[7]`, `p = 95`. -/
theorem classify_degenerate_small_witness :
    (calculateStats [7] 95).filteredValues = [7] ∧
    (calculateStats [7] 95).percentileValue = [7].headD 0 ∧
    (calculateStats [7] 95).avgValue = (([7].headD 0 : Nat) : Rat) :=
  classify_degenerate_small [7] 95 (by decide) (by decide) (by decide)

/-- C10: for any non-empty input and legal percentile, the cutoff is itself
one of the values, the cutoff index lies in `[0, n-1]` even without
clamping, and `filteredValues` is non-empty (it contains the minimum), so
the division producing `averageValue` never has a zero divisor. -/
theorem classify_value_member_nonempty_filter (values : List Nat) (p : Nat)
    (hne : values ≠ []) (hp1 : 1 ≤ p) (hp2 : p ≤ 100) :
    (calculateStats values p).percentileValue ∈ values ∧
    (calculateStats values p).filteredValues ≠ [] ∧
    listMin values ∈ (calculateStats values p).filteredValues ∧
    1 ≤ ⌈(p : Rat) / 100 * (values.length : Rat)⌉ ∧
    ⌈(p : Rat) / 100 * (values.length : Rat)⌉ ≤ (values.length : Int) := by
  have hn : 1 ≤ values.length := by
    have := List.length_pos.mpr hne
    omega
  have hidx := percentile_index_eq p values.length
  have hbounds := percentile_index_bounds p values.length hp1 hn hp2
  have hceil1 : 1 ≤ ⌈(p : Rat) / 100 * (values.length : Rat)⌉ := by
    rw [← hidx]; exact_mod_cast hbounds.1
  have hceil2 : ⌈(p : Rat) / 100 * (values.length : Rat)⌉ ≤ (values.length : Int) := by
    rw [← hidx]; exact_mod_cast hbounds.2
  by_cases hsmall : values.length ≤ 1
  · have hdeg := calculateStats_degenerate p hsmall
    obtain ⟨v, hv⟩ : ∃ v, values = [v] := by
      cases values with
      | nil => exact absurd rfl hne
      | cons x t =>
        cases t with
        | nil => exact ⟨x, rfl⟩
        | cons y u => simp at hsmall
    subst hv
    rw [hdeg]
    refine ⟨?_, ?_, ?_, hceil1, hceil2⟩
    · simp
    · simp
    · simp [listMin]
  · have hlen : 2 ≤ values.length := by omega
    have hpv : (calculateStats values p).percentileValue ∈ values := by
      rw [calculateStats_of_two_le p hlen]
      show calculatePercentile values p ∈ values
      rw [calculatePercentile_getD]
      have hilt : natCeilDiv (p * values.length) 100 - 1 < (sortNat values).length := by
        rw [sortNat_length]
        omega
      exact mem_sortNat.mp (getD_mem hilt)
    have hminf : listMin values ∈ (calculateStats values p).filteredValues := by
      rw [calculateStats_of_two_le p hlen] at hpv ⊢
      show listMin values ∈ values.filter _
      rw [List.mem_filter]
      exact ⟨listMin_mem hne, by simpa using listMin_le hpv⟩
    refine ⟨hpv, ?_, hminf, hceil1, hceil2⟩
    exact List.ne_nil_of_mem hminf

/-- C10 witness at `values = [10, 20, 30, 40, 1000]`, `p = 80`. -/
theorem classify_value_member_nonempty_filter_witness :
    (calculateStats [10, 20, 30, 40, 1000] 80).percentileValue
      ∈ [10, 20, 30, 40, 1000] ∧
    (calculateStats [10, 20, 30, 40, 1000] 80).filteredValues ≠ [] ∧
    listMin [10, 20, 30, 40, 1000]
      ∈ (calculateStats [10, 20, 30, 40, 1000] 80).filteredValues ∧
    1 ≤ ⌈(80 : Rat) / 100 * (([10, 20, 30, 40, 1000] : List Nat).length : Rat)⌉ ∧
    ⌈(80 : Rat) / 100 * (([10, 20, 30, 40, 1000] : List Nat).length : Rat)⌉
      ≤ (([10, 20, 30, 40, 1000] : List Nat).length : Int) := by
  have h := classify_value_member_nonempty_filter [10, 20, 30, 40, 1000] 80
    (by decide) (by decide) (by decide)
  simpa using h

/-! ### Helper lemmas: percentile rank -/

theorem jsRoundDiv_mono {a1 a2 : Int} (b : Nat) (h : a1 ≤ a2) :
    jsRoundDiv a1 b ≤ jsRoundDiv a2 b := by
  unfold jsRoundDiv
  rcases Nat.eq_zero_or_pos b with hb | hb
  · subst hb
    simp [Int.fdiv_zero]
  · have hb2 : (0 : Int) < 2 * (b : Int) := by positivity
    rw [Int.fdiv_eq_ediv _ (le_of_lt hb2), Int.fdiv_eq_ediv _ (le_of_lt hb2)]
    exact Int.ediv_le_ediv hb2 (by omega)

theorem findIdxO_exists {p : Nat → Bool} {l : List Nat}
    (h : ∃ x ∈ l, p x) : ∃ i, findIdxO p l = some i := by
  induction l with
  | nil => obtain ⟨x, hx, _⟩ := h; cases hx
  | cons y ys ih =>
    by_cases hy : p y
    · exact ⟨0, by simp [findIdxO, hy]⟩
    · obtain ⟨x, hx, hpx⟩ := h
      rcases List.mem_cons.mp hx with rfl | hx2
      · exact absurd hpx hy
      · obtain ⟨j, hj⟩ := ih ⟨x, hx2, hpx⟩
        exact ⟨j + 1, by simp [findIdxO, hy, hj]⟩

theorem findIdxO_mono {p q : Nat → Bool} {l : List Nat}
    (himp : ∀ v, q v = true → p v = true) {j : Nat}
    (hj : findIdxO q l = some j) :
    ∃ i, findIdxO p l = some i ∧ i ≤ j := by
  induction l generalizing j with
  | nil => simp [findIdxO] at hj
  | cons y ys ih =>
    by_cases hpy : p y
    · exact ⟨0, by simp [findIdxO, hpy], Nat.zero_le _⟩
    · have hqy : ¬ q y = true := fun hq => hpy (himp y hq)
      rw [findIdxO, if_neg hqy] at hj
      obtain ⟨j0, hj0, rfl⟩ : ∃ j0, findIdxO q ys = some j0 ∧ j0 + 1 = j := by
        cases hfq : findIdxO q ys with
        | none => rw [hfq] at hj; simp at hj
        | some k =>
          rw [hfq] at hj
          simp at hj
          exact ⟨k, rfl, hj⟩
      obtain ⟨i, hi, hij⟩ := ih hj0
      exact ⟨i + 1, by simp [findIdxO, hpy, hi], by omega⟩

/-! ### Claim theorems: percentile rank (C7) -/

/-- C7 counterexample: on the fixed list `[1, 2, 3]` the queries `3 ≤ 4`
give ranks `67` and `-33` — `findIndex` returns `-1` for a query above the
maximum, so the rank is not monotone over all query values. -/
theorem percentileRank_monotone_counterexample :
    calculatePercentileRank 3 [1, 2, 3] = 67 ∧
    calculatePercentileRank 4 [1, 2, 3] = -33 ∧
    ¬ (calculatePercentileRank 3 [1, 2, 3] ≤ calculatePercentileRank 4 [1, 2, 3]) := by
  decide

theorem calculatePercentileRank_eq (value : Nat) (values : List Nat) :
    calculatePercentileRank value values =
      jsRoundDiv
        (100 * (match findIdxO (fun v => decide (value ≤ v)) (sortNat values) with
          | some i => (i : Int)
          | none => -1))
        (sortNat values).length := rfl

/-- C7 (amended): `percentileRank` is monotone for query values that do not
exceed the maximum of the (non-empty) value set — in particular for the
values of the set itself, the only queries the program makes. -/
theorem percentileRank_monotone (values : List Nat) (v1 v2 : Nat)
    (hne : values ≠ []) (h12 : v1 ≤ v2) (h2 : v2 ≤ listMax values) :
    calculatePercentileRank v1 values ≤ calculatePercentileRank v2 values := by
  rw [calculatePercentileRank_eq, calculatePercentileRank_eq]
  have hmax : listMax values ∈ sortNat values := mem_sortNat.mpr (listMax_mem hne)
  have hex2 : ∃ x ∈ sortNat values, (fun v => decide (v2 ≤ v)) x = true := by
    exact ⟨listMax values, hmax, by simpa using h2⟩
  obtain ⟨j, hj⟩ := findIdxO_exists hex2
  have himp : ∀ v, (fun v => decide (v2 ≤ v)) v = true →
      (fun v => decide (v1 ≤ v)) v = true := by
    intro v hv
    simp only [decide_eq_true_eq] at hv ⊢
    omega
  obtain ⟨i, hi, hij⟩ := findIdxO_mono himp hj
  rw [hi, hj]
  have hle : (100 : Int) * (i : Int) ≤ 100 * (j : Int) := by
    exact_mod_cast Nat.mul_le_mul_left 100 hij
  exact jsRoundDiv_mono _ hle

/-- C7 (amended) witness at `values = [1, 2, 3]`, `v1 = 2`, `v2 = 3`. -/
theorem percentileRank_monotone_witness :
    calculatePercentileRank 2 [1, 2, 3] ≤ calculatePercentileRank 3 [1, 2, 3] :=
  percentileRank_monotone [1, 2, 3] 2 3 (by decide) (by decide) (by decide)

/-! ### Helper lemmas: the statistics manager -/

theorem addCounts_cons_ne {k' : String} {w : Counts} {rest : StatMap}
    {k : String} {c : Counts} (h : k' ≠ k) :
    addCounts ((k', w) :: rest) k c = (k', w) :: addCounts rest k c := by
  simp only [addCounts, mapGetD, mapGet, mapSet, if_neg h]

theorem addCounts_cons_eq {k' : String} {w : Counts} {rest : StatMap}
    {c : Counts} :
    addCounts ((k', w) :: rest) k' c
      = (k', ⟨w.insertions + c.insertions, w.deletions + c.deletions⟩) :: rest := by
  simp [addCounts, mapGetD, mapGet, mapSet]

theorem sumIns_addCounts (m : StatMap) (k : String) (c : Counts) :
    sumIns (addCounts m k c) = sumIns m + c.insertions := by
  induction m with
  | nil => simp [addCounts, mapGetD, mapGet, mapSet, sumIns]
  | cons e rest ih =>
    obtain ⟨k', w⟩ := e
    by_cases hk : k' = k
    · subst hk
      rw [addCounts_cons_eq]
      simp [sumIns]
      omega
    · rw [addCounts_cons_ne hk]
      simp [sumIns, ih]
      omega

theorem sumDel_addCounts (m : StatMap) (k : String) (c : Counts) :
    sumDel (addCounts m k c) = sumDel m + c.deletions := by
  induction m with
  | nil => simp [addCounts, mapGetD, mapGet, mapSet, sumDel]
  | cons e rest ih =>
    obtain ⟨k', w⟩ := e
    by_cases hk : k' = k
    · subst hk
      rw [addCounts_cons_eq]
      simp [sumDel]
      omega
    · rw [addCounts_cons_ne hk]
      simp [sumDel, ih]
      omega

theorem sumIns_aggregate_fold (f : String → String) (l : StatMap) :
    ∀ acc : StatMap,
      sumIns (l.foldl (fun a e => addCounts a (f e.1) e.2) acc)
        = sumIns acc + sumIns l := by
  induction l with
  | nil => intro acc; simp [sumIns]
  | cons e rest ih =>
    intro acc
    obtain ⟨k, c⟩ := e
    rw [List.foldl_cons, ih, sumIns_addCounts]
    simp [sumIns]
    omega

theorem sumDel_aggregate_fold (f : String → String) (l : StatMap) :
    ∀ acc : StatMap,
      sumDel (l.foldl (fun a e => addCounts a (f e.1) e.2) acc)
        = sumDel acc + sumDel l := by
  induction l with
  | nil => intro acc; simp [sumDel]
  | cons e rest ih =>
    intro acc
    obtain ⟨k, c⟩ := e
    rw [List.foldl_cons, ih, sumDel_addCounts]
    simp [sumDel]
    omega

theorem sumIns_aggregateStats_month (m : StatisticsManager) :
    sumIns (aggregateStats m .month) = sumIns m.stats := by
  show sumIns (m.stats.foldl (fun a e => addCounts a (periodKey .month e.1) e.2) [])
    = sumIns m.stats
  rw [sumIns_aggregate_fold]
  simp [sumIns]

theorem sumIns_aggregateStats_day (m : StatisticsManager) :
    sumIns (aggregateStats m .day) = sumIns m.stats := by
  show sumIns (m.stats.foldl (fun a e => addCounts a (periodKey .day e.1) e.2) [])
    = sumIns m.stats
  rw [sumIns_aggregate_fold]
  simp [sumIns]

theorem sumIns_aggregateStats_year (m : StatisticsManager) :
    sumIns (aggregateStats m .year) = sumIns m.stats := by
  show sumIns (m.stats.foldl (fun a e => addCounts a (periodKey .year e.1) e.2) [])
    = sumIns m.stats
  rw [sumIns_aggregate_fold]
  simp [sumIns]

theorem sumDel_aggregateStats_month (m : StatisticsManager) :
    sumDel (aggregateStats m .month) = sumDel m.stats := by
  show sumDel (m.stats.foldl (fun a e => addCounts a (periodKey .month e.1) e.2) [])
    = sumDel m.stats
  rw [sumDel_aggregate_fold]
  simp [sumDel]

theorem sumDel_aggregateStats_day (m : StatisticsManager) :
    sumDel (aggregateStats m .day) = sumDel m.stats := by
  show sumDel (m.stats.foldl (fun a e => addCounts a (periodKey .day e.1) e.2) [])
    = sumDel m.stats
  rw [sumDel_aggregate_fold]
  simp [sumDel]

theorem sumDel_aggregateStats_year (m : StatisticsManager) :
    sumDel (aggregateStats m .year) = sumDel m.stats := by
  show sumDel (m.stats.foldl (fun a e => addCounts a (periodKey .year e.1) e.2) [])
    = sumDel m.stats
  rw [sumDel_aggregate_fold]
  simp [sumDel]

/-! ### Claim theorems: aggregation totals (C4) -/

/-- C4: in every accumulator state reachable by a sequence of `record`
calls, the month, day and year aggregations all have the same grand total,
separately for insertions and for deletions. -/
theorem aggregate_totals_agree (recs : List CommitStats) :
    sumIns (aggregateStats (applyRecords recs) .month)
      = sumIns (aggregateStats (applyRecords recs) .day) ∧
    sumIns (aggregateStats (applyRecords recs) .day)
      = sumIns (aggregateStats (applyRecords recs) .year) ∧
    sumDel (aggregateStats (applyRecords recs) .month)
      = sumDel (aggregateStats (applyRecords recs) .day) ∧
    sumDel (aggregateStats (applyRecords recs) .day)
      = sumDel (aggregateStats (applyRecords recs) .year) := by
  refine ⟨?_, ?_, ?_, ?_⟩
  · rw [sumIns_aggregateStats_month, sumIns_aggregateStats_day]
  · rw [sumIns_aggregateStats_day, sumIns_aggregateStats_year]
  · rw [sumDel_aggregateStats_month, sumDel_aggregateStats_day]
  · rw [sumDel_aggregateStats_day, sumDel_aggregateStats_year]

theorem addCommitStats_stats (m : StatisticsManager) (c : CommitStats) :
    (addCommitStats m c).stats
      = addCounts m.stats c.date ⟨c.insertions, c.deletions⟩ := by
  unfold addCommitStats
  cases h : truthyHash c <;> simp [h]

theorem mapGet_addCounts (m : StatMap) (k d : String) (c : Counts) :
    mapGet (addCounts m k c) d =
      if k = d then
        some ⟨(mapGetD m k ⟨0, 0⟩).insertions + c.insertions,
              (mapGetD m k ⟨0, 0⟩).deletions + c.deletions⟩
      else mapGet m d := by
  induction m with
  | nil =>
    by_cases h : k = d <;>
      simp [addCounts, mapGetD, mapGet, mapSet, h]
  | cons e rest ih =>
    obtain ⟨k', w⟩ := e
    by_cases hk : k' = k
    · subst hk
      rw [addCounts_cons_eq]
      by_cases hd : k' = d
      · subst hd
        simp [mapGet, mapGetD]
      · simp [mapGet, mapGetD, hd]
    · rw [addCounts_cons_ne hk]
      by_cases hd : k' = d
      · subst hd
        have hkd : ¬ k = k' := fun h => hk h.symm
        simp [mapGet, mapGetD, hkd]
      · simp only [mapGet, if_neg hd]
        rw [ih]
        have : mapGetD ((k', w) :: rest) k ⟨0, 0⟩ = mapGetD rest k ⟨0, 0⟩ := by
          simp [mapGetD, mapGet, hk]
        rw [this]

theorem mapGetD_addCounts (m : StatMap) (k d : String) (c : Counts) :
    mapGetD (addCounts m k c) d ⟨0, 0⟩ =
      if k = d then
        ⟨(mapGetD m k ⟨0, 0⟩).insertions + c.insertions,
         (mapGetD m k ⟨0, 0⟩).deletions + c.deletions⟩
      else mapGetD m d ⟨0, 0⟩ := by
  unfold mapGetD
  rw [mapGet_addCounts]
  by_cases h : k = d <;> simp [h, mapGetD]

theorem mapGet_foldl_addCommitStats (recs : List CommitStats) :
    ∀ (m : StatisticsManager) (d : String),
      mapGet (recs.foldl addCommitStats m).stats d =
        if recsOnDate recs d = [] then mapGet m.stats d
        else some ⟨(mapGetD m.stats d ⟨0, 0⟩).insertions
                     + sumRecsIns (recsOnDate recs d),
                   (mapGetD m.stats d ⟨0, 0⟩).deletions
                     + sumRecsDel (recsOnDate recs d)⟩ := by
  induction recs with
  | nil =>
    intro m d
    simp [recsOnDate]
  | cons r rest ih =>
    intro m d
    rw [List.foldl_cons, ih]
    by_cases hd : r.date = d
    · subst hd
      have hfil : recsOnDate (r :: rest) r.date = r :: recsOnDate rest r.date := by
        simp [recsOnDate, List.filter_cons]
      rw [hfil]
      have hget : mapGet (addCommitStats m r).stats r.date
          = some ⟨(mapGetD m.stats r.date ⟨0, 0⟩).insertions + r.insertions,
                  (mapGetD m.stats r.date ⟨0, 0⟩).deletions + r.deletions⟩ := by
        rw [addCommitStats_stats, mapGet_addCounts, if_pos rfl]
      have hgetD : mapGetD (addCommitStats m r).stats r.date ⟨0, 0⟩
          = ⟨(mapGetD m.stats r.date ⟨0, 0⟩).insertions + r.insertions,
             (mapGetD m.stats r.date ⟨0, 0⟩).deletions + r.deletions⟩ := by
        rw [addCommitStats_stats, mapGetD_addCounts, if_pos rfl]
      by_cases hrest : recsOnDate rest r.date = []
      · rw [if_pos hrest, if_neg (by simp), hget, hrest]
        simp [sumRecsIns, sumRecsDel]
      · rw [if_neg hrest, if_neg (by simp), hgetD]
        have hins : sumRecsIns (r :: recsOnDate rest r.date)
            = r.insertions + sumRecsIns (recsOnDate rest r.date) := by
          simp [sumRecsIns]
        have hdel : sumRecsDel (r :: recsOnDate rest r.date)
            = r.deletions + sumRecsDel (recsOnDate rest r.date) := by
          simp [sumRecsDel]
        rw [hins, hdel]
        simp only [Option.some.injEq, Counts.mk.injEq]
        constructor <;> omega
    · have hfil : recsOnDate (r :: rest) d = recsOnDate rest d := by
        simp [recsOnDate, List.filter_cons, hd]
      rw [hfil]
      have hget : mapGet (addCommitStats m r).stats d = mapGet m.stats d := by
        rw [addCommitStats_stats, mapGet_addCounts, if_neg hd]
      have hgetD : mapGetD (addCommitStats m r).stats d ⟨0, 0⟩
          = mapGetD m.stats d ⟨0, 0⟩ := by
        rw [addCommitStats_stats, mapGetD_addCounts, if_neg hd]
      rw [hget, hgetD]

/-! ### Claim theorems: the daily-total invariant (C9) -/

/-- C9: after any sequence of `record` calls, each date's stored pair is the
componentwise sum of the ingested records sharing that date (and absent
exactly when no record carries the date), and `getStats` returns exactly
these per-day totals. -/
theorem record_preserves_daily_totals (recs : List CommitStats) (d : String) :
    mapGet (getStats (applyRecords recs)) d = dailyTotal recs d := by
  unfold getStats applyRecords dailyTotal
  rw [mapGet_foldl_addCommitStats]
  by_cases h : recsOnDate recs d = []
  · rw [if_pos h, if_pos h]
    rfl
  · rw [if_neg h, if_neg h]
    simp [initManager, mapGetD, mapGet]

/-! ### Helper lemmas: commit-mode aggregation -/

theorem mapGet_mapSet_eq {β : Type} (m : JsMap β) (k : String) (v : β) :
    mapGet (mapSet m k v) k = some v := by
  induction m with
  | nil => simp [mapSet, mapGet]
  | cons e rest ih =>
    obtain ⟨k', w⟩ := e
    by_cases h : k' = k
    · subst h
      simp [mapSet, mapGet]
    · simp [mapSet, mapGet, h, ih]

theorem mapGet_mapSet_ne {β : Type} (m : JsMap β) {k h : String} (v : β)
    (hne : k ≠ h) : mapGet (mapSet m k v) h = mapGet m h := by
  induction m with
  | nil => simp [mapSet, mapGet, hne]
  | cons e rest ih =>
    obtain ⟨k', w⟩ := e
    by_cases hk : k' = k
    · subst hk
      simp [mapSet, mapGet, hne, ih]
    · simp only [mapSet, if_neg hk]
      by_cases hd : k' = h
      · subst hd
        simp [mapGet]
      · simp [mapGet, hd, ih]

theorem mapSet_append {β : Type} (m : JsMap β) (k : String) (v : β)
    (hk : ∀ e ∈ m, e.1 ≠ k) : mapSet m k v = m ++ [(k, v)] := by
  induction m with
  | nil => rfl
  | cons e rest ih =>
    obtain ⟨k', w⟩ := e
    have hne : k' ≠ k := hk (k', w) (List.mem_cons_self _ _)
    simp only [mapSet, if_neg hne, List.cons_append]
    rw [ih (fun e he => hk e (List.mem_cons_of_mem _ he))]

theorem foldl_mapSet_nodup {β : Type} (l : JsMap β) :
    ∀ acc : JsMap β, (((acc ++ l).map Prod.fst).Nodup) →
      l.foldl (fun a e => mapSet a e.1 e.2) acc = acc ++ l := by
  induction l with
  | nil => intro acc _; simp
  | cons e rest ih =>
    intro acc hnd
    obtain ⟨k, v⟩ := e
    have hmap : ((acc ++ (k, v) :: rest).map Prod.fst)
        = acc.map Prod.fst ++ k :: rest.map Prod.fst := by
      simp
    rw [hmap] at hnd
    have hdisj := List.disjoint_of_nodup_append hnd
    have hknot : k ∉ acc.map Prod.fst := fun hmem =>
      hdisj hmem (List.mem_cons_self _ _)
    have hstep : mapSet acc k v = acc ++ [(k, v)] := by
      apply mapSet_append
      intro e he hek
      exact hknot (hek ▸ List.mem_map_of_mem Prod.fst he)
    rw [List.foldl_cons]
    show (rest.foldl (fun a e => mapSet a e.1 e.2) (mapSet acc k v)) = _
    rw [hstep, ih (acc ++ [(k, v)]) (by simpa using hnd)]
    simp

theorem mapOfList_nodup_eq {β : Type} (l : JsMap β)
    (h : (l.map Prod.fst).Nodup) : mapOfList l = l := by
  unfold mapOfList
  rw [foldl_mapSet_nodup l [] (by simpa using h)]
  simp

theorem commitOrder_foldl (recs : List CommitStats) :
    ∀ m : StatisticsManager,
      (recs.foldl addCommitStats m).commitOrder
        = m.commitOrder ++ recs.filterMap truthyHash := by
  induction recs with
  | nil => intro m; simp
  | cons r rest ih =>
    intro m
    rw [List.foldl_cons, ih]
    cases hr : truthyHash r with
    | some h =>
      simp [addCommitStats, hr, List.filterMap_cons]
    | none =>
      simp [addCommitStats, hr, List.filterMap_cons]

theorem commitStats_foldl_not_mem (recs : List CommitStats) :
    ∀ (m : StatisticsManager) (h : String),
      (∀ r ∈ recs, truthyHash r ≠ some h) →
      mapGet (recs.foldl addCommitStats m).commitStats h
        = mapGet m.commitStats h := by
  induction recs with
  | nil => intro m h _; rfl
  | cons r rest ih =>
    intro m h hno
    rw [List.foldl_cons, ih _ h (fun r' hr' => hno r' (List.mem_cons_of_mem _ hr'))]
    cases hr : truthyHash r with
    | some h' =>
      have hne : h' ≠ h := fun he =>
        hno r (List.mem_cons_self _ _) (he ▸ hr)
      simp [addCommitStats, hr, mapGet_mapSet_ne _ _ hne]
    | none =>
      simp [addCommitStats, hr]

theorem commitStats_foldl_lookup (recs : List CommitStats) :
    ∀ m : StatisticsManager, (recs.filterMap truthyHash).Nodup →
      ∀ r ∈ recs, ∀ h, truthyHash r = some h →
      mapGet (recs.foldl addCommitStats m).commitStats h = some r := by
  induction recs with
  | nil => intro m _ r hr; cases hr
  | cons r0 rest ih =>
    intro m hnd r hr h hh
    rcases List.mem_cons.mp hr with rfl | hmem
    · have hnot : ∀ r' ∈ rest, truthyHash r' ≠ some h := by
        intro r' hr' hcon
        have hcons : (r :: rest).filterMap truthyHash
            = h :: rest.filterMap truthyHash := by
          rw [List.filterMap_cons, hh]
        rw [hcons] at hnd
        have : h ∈ rest.filterMap truthyHash :=
          List.mem_filterMap.mpr ⟨r', hr', hcon⟩
        exact (List.nodup_cons.mp hnd).1 this
      rw [List.foldl_cons, commitStats_foldl_not_mem rest _ h hnot]
      simp [addCommitStats, hh, mapGet_mapSet_eq]
    · have hnd' : (rest.filterMap truthyHash).Nodup := by
        rw [List.filterMap_cons] at hnd
        cases ht : truthyHash r0 with
        | some h0 => rw [ht] at hnd; exact (List.nodup_cons.mp hnd).2
        | none => rw [ht] at hnd; exact hnd
      rw [List.foldl_cons]
      exact ih _ hnd' r hmem h hh

theorem filterMap_truthy_map (recs : List CommitStats)
    (F : CommitStats → String × Counts) (G : String → CommitStats)
    (h : ∀ r ∈ recs, ∃ hh, truthyHash r = some hh ∧ G hh = r) :
    (recs.filterMap truthyHash).map (fun hh => F (G hh)) = recs.map F := by
  induction recs with
  | nil => rfl
  | cons r rest ih =>
    obtain ⟨hh, hth, hG⟩ := h r (List.mem_cons_self _ _)
    rw [List.filterMap_cons, hth]
    simp only [List.map_cons, hG]
    rw [ih (fun r' hr' => h r' (List.mem_cons_of_mem _ hr'))]

/-! ### Claim theorems: commit-mode aggregation (C5) -/

/-- C5 counterexample: two distinct commits whose identifiers share the
same 7-character short form (and date and summary) produce a single merged
entry — the `new Map` constructor deduplicates the colliding composite
keys, keeping the last record's counts.  Commit-mode aggregation therefore
does not always return one entry per ingested record. -/
theorem aggregate_commit_merges_counterexample :
    aggregateStats (applyRecords
        [⟨"2024-01-01", 0, 1, 0, some "aaaaaaax", some "m"⟩,
         ⟨"2024-01-01", 0, 2, 0, some "aaaaaaay", some "m"⟩]) .commit
      = [("2024-01-01 aaaaaaa m", ⟨2, 0⟩)] ∧
    (aggregateStats (applyRecords
        [⟨"2024-01-01", 0, 1, 0, some "aaaaaaax", some "m"⟩,
         ⟨"2024-01-01", 0, 2, 0, some "aaaaaaay", some "m"⟩]) .commit).length ≠
      ([⟨"2024-01-01", 0, 1, 0, some "aaaaaaax", some "m"⟩,
        (⟨"2024-01-01", 0, 2, 0, some "aaaaaaay", some "m"⟩ : CommitStats)]).length := by
  decide

/-- C5 (amended): when every ingested record carries a truthy (present,
non-empty) commit identifier, the identifiers are pairwise distinct, and
the composite keys are pairwise distinct, commit-mode aggregation returns
exactly one entry per ingested record, in original ingestion order, keyed
by the composite of date, 7-character short identifier and 50-character
first summary line.  (Records without a truthy identifier are omitted from
the commit view, and colliding composite keys are merged.) -/
theorem aggregate_commit_one_entry_per_record (recs : List CommitStats)
    (hTruthy : ∀ r ∈ recs, truthyHash r ≠ none)
    (hHashes : (recs.filterMap truthyHash).Nodup)
    (hKeys : (recs.map commitKey).Nodup) :
    aggregateStats (applyRecords recs) .commit
      = recs.map (fun r => (commitKey r, (⟨r.insertions, r.deletions⟩ : Counts))) := by
  show mapOfList ((applyRecords recs).commitOrder.map (fun h =>
      let s := mapGetD (applyRecords recs).commitStats h default
      (commitKey s, (⟨s.insertions, s.deletions⟩ : Counts)))) = _
  have horder : (applyRecords recs).commitOrder = recs.filterMap truthyHash := by
    unfold applyRecords
    rw [commitOrder_foldl]
    rfl
  rw [horder]
  have hmap : (recs.filterMap truthyHash).map (fun h =>
      let s := mapGetD (applyRecords recs).commitStats h default
      (commitKey s, (⟨s.insertions, s.deletions⟩ : Counts)))
      = recs.map (fun r => (commitKey r, (⟨r.insertions, r.deletions⟩ : Counts))) := by
    apply filterMap_truthy_map recs
      (fun r => (commitKey r, (⟨r.insertions, r.deletions⟩ : Counts)))
      (fun h => mapGetD (applyRecords recs).commitStats h default)
    intro r hr
    cases hth : truthyHash r with
    | none => exact absurd hth (hTruthy r hr)
    | some hh =>
      refine ⟨hh, rfl, ?_⟩
      have := commitStats_foldl_lookup recs initManager hHashes r hr hh hth
      unfold applyRecords
      unfold mapGetD
      rw [this]
      rfl
  rw [hmap]
  apply mapOfList_nodup_eq
  have : (recs.map (fun r => (commitKey r, (⟨r.insertions, r.deletions⟩ : Counts)))).map
      Prod.fst = recs.map commitKey := by
    rw [List.map_map]
    rfl
  rw [this]
  exact hKeys

/-- C5 (amended) witness on a two-record ingestion with distinct hashes and
distinct composite keys. -/
theorem aggregate_commit_one_entry_per_record_witness :
    aggregateStats (applyRecords
        [⟨"2024-01-01", 0, 1, 0, some "aaaaaaax", some "m"⟩,
         ⟨"2024-01-02", 0, 2, 3, some "bbbbbbby", some "n"⟩]) .commit
      = ([⟨"2024-01-01", 0, 1, 0, some "aaaaaaax", some "m"⟩,
          (⟨"2024-01-02", 0, 2, 3, some "bbbbbbby", some "n"⟩ : CommitStats)]).map
          (fun r => (commitKey r, (⟨r.insertions, r.deletions⟩ : Counts))) :=
  aggregate_commit_one_entry_per_record
    [⟨"2024-01-01", 0, 1, 0, some "aaaaaaax", some "m"⟩,
     ⟨"2024-01-02", 0, 2, 3, some "bbbbbbby", some "n"⟩]
    (by decide) (by decide) (by decide)

/-! ### Claim theorems: empty-dataset rendering (C6) -/

/-- C6 counterexample: on the empty dataset `render` emits nothing at all —
in particular the section header is NOT emitted, contradicting the claimed
"header-only output".  The `if (!dates.length) return;` guard sits before
the first `console.log` of `printChart`. -/
theorem printChart_empty_counterexample :
    printChart [] "repo" 95 0 0 = [] ∧
    ChartLine.chartHeader "repo" ∉ printChart [] "repo" 95 0 0 := by
  decide

/-- C6 (amended): when `render` is invoked on an empty dataset it performs
no division (every division sits in the non-empty branch, behind the early
return) and produces no output at all: both the section header and the
table rows are skipped. -/
theorem printChart_empty_no_output (repoPath : String)
    (currentPercentile lifespan avgChangesPerDay : Nat) :
    printChart [] repoPath currentPercentile lifespan avgChangesPerDay = [] := rfl

end GitStats
